import Mathlib

/-!
Verification of the hybrid retrieval / fusion engine of the xynenyx-rag
repository against its natural-language specification.

The Python source is shallowly embedded: dictionaries become structures,
Python `float` scores become `ℚ` (the special values NaN/±inf, needed for the
similarity normalization, are modelled by an explicit inductive `PyFloat`),
Python `str(x)` on optional values is modelled by `PyVal`/`pyStrOfGet`, and
Python's stable `sorted(..., reverse=True)` is modelled by
`List.insertionSort` with a greater-or-equal relation (both are stable sorts
for the same total preorder, hence produce identical output).
-/

namespace Rag

/-- Value stored under a dictionary key that may be absent, `None`, or a
string; `str(d.get(key, ""))` maps `absent ↦ ""`, `None ↦ "None"`,
`s ↦ s` (src/app/retrieval/hybrid_retriever.py line 140). -/
inductive PyVal where
  | absent
  | pynone
  | pystr (s : String)
deriving DecidableEq, Repr

/-- Embeds `str(result.get("chunk_id", ""))`: a missing key falls back to
the default `""`; a `None` value stringifies to `"None"`. -/
def pyStrOfGet : PyVal → String
  | .absent => ""
  | .pynone => "None"
  | .pystr s => s

/-- A metadata entity entry: the Python code accepts either a plain string
or a record from which it extracts a name field with default `""`
(src/app/retrieval/filters.py lines 151-154). -/
inductive Entity where
  | str (s : String)
  | record (name : Option String)
deriving DecidableEq, Repr

/-- Name extraction `c if isinstance(c, str) else c.get("name", "")`. -/
def entityName : Entity → String
  | .str s => s
  | .record n => n.getD ""

/-- A metadata date value: either a raw string (to be parsed) or an
already-parsed datetime, modelled as an integer timestamp. -/
inductive DateVal where
  | str (s : String)
  | dt (t : ℤ)
deriving DecidableEq, Repr

/-- Python truthiness of a date value: empty strings are falsy, datetimes
are always truthy. -/
def dateTruthy : DateVal → Bool
  | .str s => s ≠ ""
  | .dt _ => true

/-- The open metadata map of a chunk, restricted to the keys the retrieval
engine reads (src/app/retrieval/filters.py). -/
structure Metadata where
  published_date : Option DateVal
  date : Option DateVal
  companies : List Entity
  investors : List Entity
  sectors : List Entity
deriving DecidableEq, Repr

/-- A retrieval hit as produced by the BM25 or vector branch
(src/app/retrieval/hybrid_retriever.py lines 100-109 and
src/app/retrieval/bm25_retriever.py lines 132-142). `Option` fields model
dictionary keys that may be missing or `None`. -/
structure Hit where
  chunk_id : PyVal
  content : String
  metadata : Metadata
  document_id : Option String
  bm25_score : Option ℚ
  vector_score : Option ℚ
deriving DecidableEq, Repr

/-- The chunk id a hit contributes under, after `str(...get("chunk_id", ""))`. -/
def hitCid (h : Hit) : String := pyStrOfGet h.chunk_id

/-- A fused result accumulator entry
(src/app/retrieval/hybrid_retriever.py lines 147-155). -/
structure FusedResult where
  content : String
  metadata : Metadata
  document_id : Option String
  chunk_id : String
  rrf_score : ℚ
  bm25_score : Option ℚ
  vector_score : Option ℚ
deriving DecidableEq, Repr

/-- Reciprocal Rank Fusion score `1.0 / (k + rank)`
(src/app/retrieval/hybrid_retriever.py lines 12-23, default `k = 60`). -/
def rrf_score (rank k : ℕ) : ℚ := 1 / ((k : ℚ) + (rank : ℚ))

/-- Ordered association list lookup, modelling `result_map[chunk_id]`. -/
def mapLookup (m : List (String × FusedResult)) (cid : String) : Option FusedResult :=
  (m.find? (fun p => p.1 = cid)).map Prod.snd

/-- Insert-or-update on an insertion-ordered association list, modelling
`if chunk_id not in result_map: result_map[chunk_id] = dflt` followed by an
in-place update of `result_map[chunk_id]`: an existing binding is updated
in place (keeping the dictionary's insertion order), a new key is appended
at the end. -/
def upsert : List (String × FusedResult) → String → FusedResult →
    (FusedResult → FusedResult) → List (String × FusedResult)
  | [], cid, dflt, f => [(cid, f dflt)]
  | p :: rest, cid, dflt, f =>
    if p.1 = cid then (p.1, f p.2) :: rest else p :: upsert rest cid dflt f

/-- Fresh accumulator entry created in the BM25 pass
(src/app/retrieval/hybrid_retriever.py lines 146-155). -/
def bm25Init (h : Hit) (cid : String) : FusedResult :=
  { content := h.content
    metadata := h.metadata
    document_id := h.document_id
    chunk_id := cid
    rrf_score := 0
    bm25_score := h.bm25_score
    vector_score := none }

/-- Fresh accumulator entry created in the vector pass
(src/app/retrieval/hybrid_retriever.py lines 167-176). -/
def vectorInit (h : Hit) (cid : String) : FusedResult :=
  { content := h.content
    metadata := h.metadata
    document_id := h.document_id
    chunk_id := cid
    rrf_score := 0
    bm25_score := none
    vector_score := h.vector_score }

/-- The accumulator update `result_map[chunk_id]["rrf_score"] += rrf`
(src/app/retrieval/hybrid_retriever.py line 157). -/
def bmUpdate (rank k : ℕ) (e : FusedResult) : FusedResult :=
  { e with rrf_score := e.rrf_score + rrf_score rank k }

/-- BM25 pass of `_fuse_results` (src/app/retrieval/hybrid_retriever.py
lines 138-157): hits are enumerated from `rank`, empty chunk ids are
skipped, each surviving hit adds `rrf_score rank k` to its accumulator. -/
def processBM25 (k : ℕ) : ℕ → List Hit → List (String × FusedResult) → List (String × FusedResult)
  | _, [], m => m
  | rank, h :: hs, m =>
    processBM25 k (rank + 1) hs
      (if hitCid h = "" then m
       else upsert m (hitCid h) (bm25Init h (hitCid h)) (bmUpdate rank k))

/-- The accumulator update of the vector pass: add the rank contribution
and fill `vector_score` when it is still `None`
(src/app/retrieval/hybrid_retriever.py lines 178-180). -/
def vectorUpdate (h : Hit) (rank k : ℕ) (e : FusedResult) : FusedResult :=
  if e.vector_score = none then
    { e with rrf_score := e.rrf_score + rrf_score rank k, vector_score := h.vector_score }
  else { e with rrf_score := e.rrf_score + rrf_score rank k }

/-- Vector pass of `_fuse_results` (src/app/retrieval/hybrid_retriever.py
lines 159-180): like the BM25 pass, and additionally fills in
`vector_score` when it is still `None`. -/
def processVector (k : ℕ) : ℕ → List Hit → List (String × FusedResult) → List (String × FusedResult)
  | _, [], m => m
  | rank, h :: hs, m =>
    processVector k (rank + 1) hs
      (if hitCid h = "" then m
       else upsert m (hitCid h) (vectorInit h (hitCid h)) (vectorUpdate h rank k))

/-- The accumulator map built by `_fuse_results` before sorting. -/
def fuseMap (k : ℕ) (bm25_results vector_results : List Hit) : List (String × FusedResult) :=
  processVector k 1 vector_results (processBM25 k 1 bm25_results [])

/-- Descending comparison on `rrf_score` used by
`sorted(result_map.values(), key=lambda x: x["rrf_score"], reverse=True)`;
`List.insertionSort` with this relation is the stable descending sort. -/
def rrfGE (a b : FusedResult) : Prop := b.rrf_score ≤ a.rrf_score

instance : DecidableRel rrfGE := fun a b => inferInstanceAs (Decidable (_ ≤ _))

instance : IsTotal FusedResult rrfGE := ⟨fun a b => le_total b.rrf_score a.rrf_score⟩

instance : IsTrans FusedResult rrfGE := ⟨fun _ _ _ h1 h2 => le_trans h2 h1⟩

/-- The method `HybridRetriever._fuse_results`
(src/app/retrieval/hybrid_retriever.py lines 118-189). -/
def HybridRetriever.fuse_results (k : ℕ) (bm25_results vector_results : List Hit)
    (top_k : ℕ) : List FusedResult :=
  (((fuseMap k bm25_results vector_results).map Prod.snd).insertionSort rrfGE).take top_k

/-! Section: Temporal filter (src/app/retrieval/filters.py lines 64-114) -/

/-- A parsed date range as produced by `TemporalFilter.parse_filter`;
`filter_results` guards each bound with its own truthiness check. -/
structure DateRange where
  start_date : Option ℤ
  end_date : Option ℤ

/-- Python `metadata.get("published_date") or metadata.get("date")`
(src/app/retrieval/filters.py line 89): the second operand is returned
whenever the first is missing or falsy. -/
def pyOrDate (a b : Option DateVal) : Option DateVal :=
  match a with
  | some v => if dateTruthy v then some v else b
  | none => b

/-- One iteration of the result loop of `TemporalFilter.filter_results`
(src/app/retrieval/filters.py lines 86-112): `true` means the result is
appended to `filtered`. `dparse` embeds `dateparser.parse`, which returns
`None` (not an exception) on an unparseable string; in that case no branch
appends the result, so it is dropped. -/
def temporalKeep (dparse : String → Option ℤ) (range : DateRange) (r : FusedResult) : Bool :=
  match pyOrDate r.metadata.published_date r.metadata.date with
  | none => true
  | some v =>
    if dateTruthy v then
      match (match v with | .str s => dparse s | .dt t => some t) with
      | some t =>
        if range.start_date.any (fun s => decide (t < s)) then false
        else if range.end_date.any (fun e => decide (e < t)) then false
        else true
      | none => false
    else true

/-- The method `TemporalFilter.filter_results`
(src/app/retrieval/filters.py lines 64-114). -/
def TemporalFilter.filter_results (dparse : String → Option ℤ)
    (results : List FusedResult) (range : DateRange) : List FusedResult :=
  results.filter (temporalKeep dparse range)

/-! Section: Entity filter (src/app/retrieval/filters.py lines 117-199) -/

/-- Containment of `needle` in `hay` as a contiguous substring, the
semantics of Python's `needle in hay` on strings. -/
def listPrefixOf : List Char → List Char → Bool
  | [], _ => true
  | _ :: _, [] => false
  | a :: as, b :: bs => a = b && listPrefixOf as bs

/-- Substring search over character lists. -/
def listSubOf (needle : List Char) : List Char → Bool
  | [] => needle.isEmpty
  | c :: t => listPrefixOf needle (c :: t) || listSubOf needle t

/-- Python `needle in hay` for strings. -/
def strContains (hay needle : String) : Bool := listSubOf needle.toList hay.toList

/-- Python `str.lower()` (its ASCII action), applied per character; a
kernel-computable form of `String.toLower`. -/
def lowerStr (s : String) : String := String.mk (s.data.map Char.toLower)

/-- One dimension check of `EntityFilter.filter_results`
(src/app/retrieval/filters.py lines 147-161): the result survives the
dimension when the filter list is empty (falsy, no constraint) or some
lowercased entity name contains some lowercased filter term. -/
def dimPasses (filterTerms : List String) (entities : List Entity) : Bool :=
  if filterTerms.isEmpty then true
  else
    let namesLower := (entities.map entityName).map lowerStr
    filterTerms.any (fun t => namesLower.any (fun n => strContains n (lowerStr t)))

/-- The method `EntityFilter.filter_results`
(src/app/retrieval/filters.py lines 120-199). -/
def EntityFilter.filter_results (results : List FusedResult)
    (company_filter investor_filter sector_filter : List String) : List FusedResult :=
  if company_filter.isEmpty && investor_filter.isEmpty && sector_filter.isEmpty then results
  else
    results.filter (fun r =>
      dimPasses company_filter r.metadata.companies
      && dimPasses investor_filter r.metadata.investors
      && dimPasses sector_filter r.metadata.sectors)

/-! Section: Similarity normalization (src/app/routers/query.py lines 21-30, 161-198) -/

/-- A Python float as far as the similarity logic observes it: the three
IEEE special values plus an exact finite value. Only selection, comparison,
and clamping are performed on these, so no rounding is involved. -/
inductive PyFloat where
  | nan
  | posInf
  | negInf
  | val (q : ℚ)
deriving DecidableEq, Repr

/-- Python truthiness of a float: only (-)0.0 is falsy; NaN and the
infinities are truthy. -/
def pyFloatTruthy : PyFloat → Bool
  | .nan => true
  | .posInf => true
  | .negInf => true
  | .val q => q ≠ 0

/-- The function `sanitize_float` (src/app/routers/query.py lines 21-30):
NaN becomes 0.0, +inf becomes 1.0, -inf becomes 0.0, finite values pass
through. -/
def sanitize_float : PyFloat → ℚ
  | .nan => 0
  | .posInf => 1
  | .negInf => 0
  | .val q => q

/-- The clamp `max(0.0, min(1.0, sanitized))`
(src/app/routers/query.py line 177). -/
def clamp01 (q : ℚ) : ℚ := max 0 (min 1 q)

/-- The score fields of one result dictionary as read by the formatting
loop of the `query` route; `none` models a missing key or a `None` value
(both make `result.get(...)` return `None`). -/
structure ScoreFields where
  rerank_score : Option PyFloat
  rrf_score : Option PyFloat
  vector_score : Option PyFloat
  similarity : Option PyFloat
deriving DecidableEq, Repr

/-- Python `x or y` on an optional float operand: `y` is returned whenever
`x` is missing (`None`) or falsy. -/
def pyOrFloat (x : Option PyFloat) (y : PyFloat) : PyFloat :=
  match x with
  | some v => if pyFloatTruthy v then v else y
  | none => y

/-- The raw similarity selection
`result.get("rerank_score") or result.get("rrf_score") or
result.get("vector_score") or result.get("similarity") or 0.0`
(src/app/routers/query.py lines 165-171). -/
def rawSimilarity (r : ScoreFields) : PyFloat :=
  pyOrFloat r.rerank_score
    (pyOrFloat r.rrf_score
      (pyOrFloat r.vector_score
        (pyOrFloat r.similarity (.val 0))))

/-- The public `similarity` field: sanitize then clamp into `[0, 1]`
(src/app/routers/query.py lines 173-177). -/
def similarityField (r : ScoreFields) : ℚ :=
  clamp01 (sanitize_float (rawSimilarity r))

/-! Section: BM25 retriever (src/app/retrieval/bm25_retriever.py) -/

/-- A chunk row as loaded from the `document_chunks` table
(`select "id, document_id, content, metadata"`). -/
structure Chunk where
  id : PyVal
  document_id : Option String
  content : String
  metadata : Metadata
deriving DecidableEq, Repr

/-- Descending comparison on the score component for
`scored_chunks.sort(key=lambda x: x[1], reverse=True)`
(src/app/retrieval/bm25_retriever.py line 129). -/
def chunkScoreGE (a b : Chunk × ℚ) : Prop := b.2 ≤ a.2

instance : DecidableRel chunkScoreGE := fun a b => inferInstanceAs (Decidable (_ ≤ _))

/-- Formatting of one scored chunk into a BM25 hit
(src/app/retrieval/bm25_retriever.py lines 133-142); a BM25 hit dictionary
carries no `vector_score` key, so `get("vector_score")` yields `None`. -/
def bm25Format (p : Chunk × ℚ) : Hit :=
  { chunk_id := .pystr (pyStrOfGet p.1.id)
    content := p.1.content
    metadata := p.1.metadata
    document_id := p.1.document_id
    bm25_score := some p.2
    vector_score := none }

/-- The method `BM25RetrieverWrapper.retrieve`
(src/app/retrieval/bm25_retriever.py lines 89-148) with the index state
(`self.chunks`) and the scores computed by `self.bm25.get_scores` passed
explicitly: empty corpus short-circuits to `[]`; otherwise chunks are
paired with their scores, stably sorted by descending score, truncated,
and formatted. -/
def BM25RetrieverWrapper.retrieve (chunks : List Chunk) (scores : List ℚ)
    (top_k : ℕ) : List Hit :=
  if chunks.isEmpty then []
  else (((chunks.zip scores).insertionSort chunkScoreGE).take top_k).map bm25Format

/-! Section: Hybrid retrieve (src/app/retrieval/hybrid_retriever.py lines 48-116) -/

/-- A raw row returned by `VectorStore.search`. -/
structure VRaw where
  id : PyVal
  content : String
  similarity : Option ℚ
  metadata : Metadata
  document_id : Option String

/-- Formatting of one raw vector row
(src/app/retrieval/hybrid_retriever.py lines 100-109): a vector hit
dictionary carries no `bm25_score` key. -/
def vectorFormat (r : VRaw) : Hit :=
  { chunk_id := r.id
    content := r.content
    metadata := r.metadata
    document_id := r.document_id
    bm25_score := none
    vector_score := some (r.similarity.getD 0) }

/-- Python `top_k = top_k or settings.default_top_k`
(src/app/retrieval/hybrid_retriever.py line 76): `None` and `0` are falsy
and fall back to the default `d`. -/
def effTopK (top_k : Option ℕ) (d : ℕ) : ℕ :=
  match top_k with
  | none => d
  | some n => if n = 0 then d else n

/-- The method `HybridRetriever.retrieve`
(src/app/retrieval/hybrid_retriever.py lines 48-116). The outcomes of the
two external branches are passed as `Except`: a raising branch leaves its
result list empty (the `except` clauses only log), and fusion always runs. -/
def HybridRetriever.retrieve (k d : ℕ)
    (bm25_outcome : Except Unit (List Hit))
    (vector_outcome : Except Unit (List VRaw))
    (top_k : Option ℕ) (use_bm25 use_vector : Bool) : List FusedResult :=
  let t := effTopK top_k d
  let bm25_results := if use_bm25 then (bm25_outcome.toOption.getD []) else []
  let vector_results := if use_vector then
      match vector_outcome with
      | .ok raw => raw.map vectorFormat
      | .error _ => []
    else []
  HybridRetriever.fuse_results k bm25_results vector_results t

/-! Section: Multi-query retriever (src/app/retrieval/multi_query.py lines 30-108) -/

/-- A deduplicated multi-query entry: the kept fused result together with
the `query_variation` tag the code writes into it
(src/app/retrieval/multi_query.py line 87). -/
structure MQEntry where
  res : FusedResult
  query_variation : String
deriving DecidableEq, Repr

/-- Normalization of the variation list
(src/app/retrieval/multi_query.py lines 55-61): the original query is
moved to the front (Python `list.remove` drops the first occurrence), or
inserted at the front when absent. -/
def MultiQueryRetriever.normalize_variations (query : String) (vars : List String) : List String :=
  if query ∈ vars then query :: vars.erase query else query :: vars

/-- The per-variant retrieval results, tagged with their variant, in
processing order; a variant whose retrieval raises is skipped
(src/app/retrieval/multi_query.py lines 69-92). -/
def mqTagged (vars : List String) (f : String → Except Unit (List FusedResult)) :
    List (String × FusedResult) :=
  vars.flatMap (fun q =>
    match f q with
    | .ok rs => rs.map (fun r => (q, r))
    | .error _ => [])

/-- The deduplication loop (src/app/retrieval/multi_query.py lines 82-88):
a result is appended only when its `chunk_id` is truthy (non-empty) and
not yet seen; later occurrences of a seen `chunk_id` are dropped. -/
def mqDedup (seen : List String) : List (String × FusedResult) → List MQEntry
  | [] => []
  | (q, r) :: rest =>
    if r.chunk_id ≠ "" ∧ r.chunk_id ∉ seen then
      ⟨r, q⟩ :: mqDedup (r.chunk_id :: seen) rest
    else
      mqDedup seen rest

/-- The sort key `x.get("rrf_score", 0) or x.get("vector_score", 0) or
x.get("similarity", 0)` (src/app/retrieval/multi_query.py lines 96-101):
fused result dictionaries always carry `rrf_score`, may carry a `None`
`vector_score`, and carry no `similarity` key. -/
def mqKey (e : MQEntry) : ℚ :=
  if e.res.rrf_score ≠ 0 then e.res.rrf_score
  else match e.res.vector_score with
    | some v => if v ≠ 0 then v else 0
    | none => 0

/-- Descending comparison on `mqKey` for the final stable sort. -/
def mqGE (a b : MQEntry) : Prop := mqKey b ≤ mqKey a

instance : DecidableRel mqGE := fun a b => inferInstanceAs (Decidable (_ ≤ _))

/-- The method `MultiQueryRetriever.retrieve`
(src/app/retrieval/multi_query.py lines 30-108) on the explicit-variants
path: normalize the variation list, retrieve per variant, deduplicate by
`chunk_id` (first occurrence wins), stably sort the merged set by the best
available score, and only then truncate to `top_k`. -/
def MultiQueryRetriever.retrieve (query : String) (vars : List String)
    (f : String → Except Unit (List FusedResult)) (top_k : Option ℕ) (d : ℕ) : List MQEntry :=
  ((mqDedup [] (mqTagged (MultiQueryRetriever.normalize_variations query vars) f)).insertionSort
    mqGE).take (effTopK top_k d)

/-! Section: Reranker (src/app/retrieval/reranker.py) -/

/-- The lazy-loading state of the `Reranker` adapter. -/
structure RerankerSt where
  model_loaded : Bool
  model_load_failed : Bool
  model_present : Bool
deriving DecidableEq, Repr

/-- The method `Reranker._load_model`
(src/app/retrieval/reranker.py lines 51-75): a no-op once loaded or
permanently failed; otherwise the outcome of the external model
construction decides the new state. -/
def Reranker.load_model (load_ok : Bool) (s : RerankerSt) : RerankerSt :=
  if s.model_loaded || s.model_load_failed then s
  else if load_ok then { model_loaded := true, model_load_failed := false, model_present := true }
  else { model_loaded := false, model_load_failed := true, model_present := false }

/-- Descending comparison on the cross-encoder score for
`scored_docs.sort(key=lambda x: x[1], reverse=True)`
(src/app/retrieval/reranker.py line 117). -/
def pairScoreGE (a b : FusedResult × ℚ) : Prop := b.2 ≤ a.2

instance : DecidableRel pairScoreGE := fun a b => inferInstanceAs (Decidable (_ ≤ _))

/-- The outcome of one `Reranker.rerank` call: the returned documents, the
adapter state afterwards, and whether `_load_model` was invoked. -/
structure RerankOut where
  results : List (FusedResult × Option ℚ)
  state : RerankerSt
  load_attempted : Bool
deriving DecidableEq, Repr

/-- The method `Reranker.rerank` (src/app/retrieval/reranker.py lines
77-130). Empty candidate lists return immediately, before `_load_model`.
With no usable model the input is passed through unscored. Otherwise the
external `model.predict` outcome either scores, stably sorts, truncates,
and tags the documents, or (on an exception) the truncated input is
returned. The attached `Option ℚ` is the `rerank_score` added to each
returned document. -/
def Reranker.rerank (load_ok : Bool) (predict : Except Unit (List ℚ)) (s : RerankerSt)
    (documents : List FusedResult) (top_k : Option ℕ) : RerankOut :=
  if documents.isEmpty then ⟨[], s, false⟩
  else
    let s' := Reranker.load_model load_ok s
    if !s'.model_present || s'.model_load_failed then
      ⟨documents.map (fun d => (d, none)), s', true⟩
    else
      let t := effTopK top_k documents.length
      match predict with
      | .ok scores =>
        ⟨(((documents.zip scores).insertionSort pairScoreGE).take t).map
          (fun p => (p.1, some p.2)), s', true⟩
      | .error _ => ⟨(documents.take t).map (fun d => (d, none)), s', true⟩

/-! Section: Derived observers used by the theorems -/

/-- The keys of the accumulator map, in insertion order. -/
def mapKeys (m : List (String × FusedResult)) : List String := m.map Prod.fst

/-- The accumulated `rrf_score` of a chunk id, `0` when the id is absent. -/
def rrfOf (m : List (String × FusedResult)) (cid : String) : ℚ :=
  ((mapLookup m cid).map FusedResult.rrf_score).getD 0

/-- Entry well-formedness of the accumulator map: every binding has a
non-empty key and an entry whose `chunk_id` equals its key. -/
def invMap (m : List (String × FusedResult)) : Prop :=
  ∀ p ∈ m, p.1 ≠ "" ∧ p.2.chunk_id = p.1

/-- The total RRF contribution a chunk id collects from one source list
whose first element carries rank `rank`: positions are ranked
consecutively and every occurrence of the id contributes. -/
def contribSum (k : ℕ) (cid : String) : ℕ → List Hit → ℚ
  | _, [] => 0
  | rank, h :: hs =>
    (if hitCid h = cid then rrf_score rank k else 0) + contribSum k cid (rank + 1) hs

/-- The accumulator entries appended by a BM25-only pass over hits with
pairwise-distinct non-empty ids, first element ranked `rank`. -/
def bmAppend (k : ℕ) : ℕ → List Hit → List (String × FusedResult)
  | _, [] => []
  | rank, h :: hs =>
    (hitCid h,
      { bm25Init h (hitCid h) with rrf_score := 0 + rrf_score rank k }) :: bmAppend k (rank + 1) hs

/-- Modelled from the spec (§4.6) for comparison: "pick the first non-null
value in priority order {rerank_score, rrf_score, vector_score,
lexical-derived similarity}". -/
def firstNonNull (r : ScoreFields) : PyFloat :=
  match r.rerank_score with
  | some v => v
  | none =>
    match r.rrf_score with
    | some v => v
    | none =>
      match r.vector_score with
      | some v => v
      | none => r.similarity.getD (.val 0)

/-- First non-null and truthy (non-zero) value of a priority list of
optional floats, defaulting to `0.0`: the selection the code actually
performs through its `or` chain. -/
def firstTruthy : List (Option PyFloat) → PyFloat
  | [] => .val 0
  | none :: rest => firstTruthy rest
  | some v :: rest => if pyFloatTruthy v then v else firstTruthy rest

/-! Section: Concrete inputs for witnesses and counterexamples -/

/-- Empty metadata. -/
def meta0 : Metadata :=
  { published_date := none, date := none, companies := [], investors := [], sectors := [] }

/-- A minimal hit with the given chunk id. -/
def mkHit (cid : String) : Hit :=
  { chunk_id := .pystr cid, content := "", metadata := meta0,
    document_id := none, bm25_score := some 1, vector_score := none }

/-- A minimal fused result with the given chunk id and rrf score. -/
def mkFused (cid : String) (q : ℚ) : FusedResult :=
  { content := "", metadata := meta0, document_id := none, chunk_id := cid,
    rrf_score := q, bm25_score := none, vector_score := none }

/-- A result whose metadata `published_date` is a string no parser
accepts. -/
def c2Result : FusedResult :=
  { content := "t", metadata :=
      { published_date := some (.str "not-a-date"), date := none,
        companies := [], investors := [], sectors := [] },
    document_id := none, chunk_id := "c", rrf_score := 0,
    bm25_score := none, vector_score := none }

/-- A result with no date field at all. -/
def c2NoDate : FusedResult :=
  { content := "u", metadata := meta0, document_id := none, chunk_id := "d",
    rrf_score := 0, bm25_score := none, vector_score := none }

/-- A concrete parsed date range. -/
def c2Range : DateRange := { start_date := some 0, end_date := some 100 }

/-- Score fields with a present-but-zero `rerank_score` and a non-zero
`rrf_score`. -/
def c3Ex : ScoreFields :=
  { rerank_score := some (.val 0), rrf_score := some (.val (1/2)),
    vector_score := none, similarity := none }

/-- A result whose companies metadata matches the claim's kept example. -/
def c6Keep : FusedResult :=
  { content := "", metadata :=
      { published_date := none, date := none,
        companies := [.str "Anthropic", .str "OpenAI"], investors := [], sectors := [] },
    document_id := none, chunk_id := "k", rrf_score := 0,
    bm25_score := none, vector_score := none }

/-- A result whose companies metadata matches the claim's dropped example. -/
def c6Drop : FusedResult :=
  { content := "", metadata :=
      { published_date := none, date := none,
        companies := [.str "Google"], investors := [], sectors := [] },
    document_id := none, chunk_id := "g", rrf_score := 0,
    bm25_score := none, vector_score := none }

/-- A one-chunk corpus for the degradation witness. -/
def c5Chunk : Chunk :=
  { id := .pystr "c1", document_id := none, content := "hello", metadata := meta0 }

/-! Section: theorems -/

theorem clamp01_nonneg (q : ℚ) : 0 ≤ clamp01 q := le_max_left 0 _

theorem clamp01_le_one (q : ℚ) : clamp01 q ≤ 1 := max_le (by norm_num) (min_le_left 1 q)

/-- C8: for every raw score value selected for the similarity field,
including NaN, +Infinity, -Infinity, negative numbers, and values greater
than 1, the computed similarity (`sanitize_float` followed by clamping)
always lies within `[0, 1]`. -/
theorem C8_similarity_always_bounded (v : PyFloat) (r : ScoreFields) :
    0 ≤ clamp01 (sanitize_float v) ∧ clamp01 (sanitize_float v) ≤ 1 ∧
    0 ≤ similarityField r ∧ similarityField r ≤ 1 :=
  ⟨clamp01_nonneg _, clamp01_le_one _, clamp01_nonneg _, clamp01_le_one _⟩

/-- C10: `Reranker.rerank` on an empty candidates list returns the empty
list immediately: the adapter state is returned unchanged and
`_load_model` is never invoked (`load_attempted = false`), whatever the
load outcome, the external scoring outcome, the prior state, and the
requested `top_k` (the query string only enters the dropped scoring
call). -/
theorem C10_rerank_empty_candidates (load_ok : Bool) (predict : Except Unit (List ℚ))
    (s : RerankerSt) (top_k : Option ℕ) :
    Reranker.rerank load_ok predict s [] top_k =
      { results := [], state := s, load_attempted := false } := rfl

/-- C2 (divergence witness): a result whose `published_date` is a string
every parser rejects (`dateparser.parse` returns `None`) is dropped by
`TemporalFilter.filter_results`, because the `if result_date:` guard falls
through without appending and the `except` clause is never reached; a
result with no date at all is kept. The claim and the code's own comment
("If date parsing fails, include the result") say the first result must be
kept as well. -/
theorem C2_unparseable_date_dropped :
    TemporalFilter.filter_results (fun _ => none) [c2Result, c2NoDate] c2Range = [c2NoDate] := by
  decide

/-- C3 (counterexample): with `rerank_score` present and equal to `0.0`
and `rrf_score = 1/2`, the code's similarity is `1/2` — the zero-valued
higher-priority score is skipped by the `or` chain — while the claim's
first-non-null selection would produce `0`. -/
theorem C3_zero_priority_skipped :
    similarityField c3Ex = 1/2 ∧ clamp01 (sanitize_float (firstNonNull c3Ex)) = 0 := by
  constructor
  · show clamp01 (sanitize_float (rawSimilarity c3Ex)) = 1/2
    norm_num [rawSimilarity, c3Ex, pyOrFloat, pyFloatTruthy, sanitize_float, clamp01]
  · norm_num [firstNonNull, c3Ex, sanitize_float, clamp01]

/-- C3 (amended): the public similarity equals the first non-null and
non-zero (Python-truthy) value among rerank_score, rrf_score,
vector_score, raw similarity in that priority order — a higher-priority
score that is present with value `0.0` is skipped, not selected — with
NaN replaced by `0.0`, +Infinity by `1.0`, -Infinity by `0.0`, and the
value clamped into `[0, 1]`. -/
theorem C3_amended_similarity_selection (r : ScoreFields) :
    similarityField r = clamp01 (sanitize_float
      (firstTruthy [r.rerank_score, r.rrf_score, r.vector_score, r.similarity])) := by
  rcases r with ⟨a, b, c, d⟩
  cases a <;> cases b <;> cases c <;> cases d <;>
    simp [similarityField, rawSimilarity, pyOrFloat, firstTruthy]

/-! Section: Accumulator map lemmas -/

theorem mapLookup_cons (x : String × FusedResult) (m : List (String × FusedResult)) (c : String) :
    mapLookup (x :: m) c = if x.1 = c then some x.2 else mapLookup m c := by
  by_cases h : x.1 = c <;> simp [mapLookup, List.find?_cons, h]

theorem mapLookup_upsert (m : List (String × FusedResult)) (cid c : String)
    (dflt : FusedResult) (f : FusedResult → FusedResult) :
    mapLookup (upsert m cid dflt f) c =
      if c = cid then some (f ((mapLookup m cid).getD dflt)) else mapLookup m c := by
  induction m with
  | nil =>
    by_cases h : c = cid
    · subst h; simp [upsert, mapLookup_cons, mapLookup]
    · have h2 : ¬(cid = c) := fun e => h e.symm
      simp [upsert, mapLookup_cons, mapLookup, h, h2]
  | cons p rest ih =>
    obtain ⟨pk, pv⟩ := p
    by_cases hp : pk = cid
    · subst hp
      by_cases hc : c = pk
      · subst hc; simp [upsert, mapLookup_cons]
      · have h2 : ¬(pk = c) := fun e => hc e.symm
        simp [upsert, mapLookup_cons, hc, h2]
    · by_cases hpc : pk = c
      · subst hpc
        simp [upsert, mapLookup_cons, hp]
      · simp [upsert, mapLookup_cons, hp, hpc, ih]

theorem rrf_getD (m : List (String × FusedResult)) (cid : String) (dflt : FusedResult)
    (hd : dflt.rrf_score = 0) :
    ((mapLookup m cid).getD dflt).rrf_score = rrfOf m cid := by
  cases h : mapLookup m cid <;> simp [rrfOf, h, hd]

theorem rrfOf_upsert (m : List (String × FusedResult)) (cid c : String)
    (dflt : FusedResult) (f : FusedResult → FusedResult) (x : ℚ)
    (hf : ∀ e, (f e).rrf_score = e.rrf_score + x) (hd : dflt.rrf_score = 0) :
    rrfOf (upsert m cid dflt f) c = if c = cid then rrfOf m c + x else rrfOf m c := by
  by_cases h : c = cid
  · subst h
    simp [rrfOf, mapLookup_upsert, hf, rrf_getD m c dflt hd]
  · simp [rrfOf, mapLookup_upsert, h]

theorem rrfOf_nil (cid : String) : rrfOf [] cid = 0 := rfl

theorem rrfOf_processBM25 (k : ℕ) (cid : String) (hcid : cid ≠ "") (hs : List Hit) :
    ∀ (rank : ℕ) (m : List (String × FusedResult)),
    rrfOf (processBM25 k rank hs m) cid = rrfOf m cid + contribSum k cid rank hs := by
  induction hs with
  | nil => intro rank m; simp [processBM25, contribSum]
  | cons h hs ih =>
    intro rank m
    rw [processBM25, contribSum, ih]
    by_cases hc : hitCid h = ""
    · have hne : ¬(hitCid h = cid) := fun e => hcid (e.symm.trans hc)
      rw [if_pos hc, if_neg hne]
      ring
    · rw [if_neg hc,
        rrfOf_upsert m (hitCid h) cid (bm25Init h (hitCid h)) _ (rrf_score rank k)
          (fun e => rfl) rfl]
      by_cases hm : hitCid h = cid
      · rw [if_pos hm.symm, if_pos hm]
        ring
      · rw [if_neg (fun e => hm e.symm), if_neg hm]
        ring

theorem vector_update_rrf (h : Hit) (rank k : ℕ) (e : FusedResult) :
    (vectorUpdate h rank k e).rrf_score = e.rrf_score + rrf_score rank k := by
  by_cases hv : e.vector_score = none <;> simp [vectorUpdate, hv]

theorem rrfOf_processVector (k : ℕ) (cid : String) (hcid : cid ≠ "") (hs : List Hit) :
    ∀ (rank : ℕ) (m : List (String × FusedResult)),
    rrfOf (processVector k rank hs m) cid = rrfOf m cid + contribSum k cid rank hs := by
  induction hs with
  | nil => intro rank m; simp [processVector, contribSum]
  | cons h hs ih =>
    intro rank m
    rw [processVector, contribSum, ih]
    by_cases hc : hitCid h = ""
    · have hne : ¬(hitCid h = cid) := fun e => hcid (e.symm.trans hc)
      rw [if_pos hc, if_neg hne]
      ring
    · rw [if_neg hc,
        rrfOf_upsert m (hitCid h) cid (vectorInit h (hitCid h)) _ (rrf_score rank k)
          (vector_update_rrf h rank k) rfl]
      by_cases hm : hitCid h = cid
      · rw [if_pos hm.symm, if_pos hm]
        ring
      · rw [if_neg (fun e => hm e.symm), if_neg hm]
        ring

theorem contribSum_of_not_mem (k : ℕ) (cid : String) (xs : List Hit)
    (h : cid ∉ xs.map hitCid) : ∀ rank, contribSum k cid rank xs = 0 := by
  induction xs with
  | nil => intro rank; rfl
  | cons x xs ih =>
    intro rank
    rw [List.map_cons, List.mem_cons, not_or] at h
    rw [contribSum, if_neg (fun e => h.1 e.symm), ih h.2]
    ring

theorem contribSum_append (k : ℕ) (cid : String) (xs ys : List Hit) :
    ∀ rank, contribSum k cid rank (xs ++ ys)
      = contribSum k cid rank xs + contribSum k cid (rank + xs.length) ys := by
  induction xs with
  | nil => intro rank; simp [contribSum]
  | cons x xs ih =>
    intro rank
    rw [List.cons_append, contribSum, contribSum, ih (rank + 1)]
    have : rank + 1 + xs.length = rank + (x :: xs).length := by
      simp [List.length_cons]; omega
    rw [this]
    ring

theorem rrf_score_pos (rank k : ℕ) (h : 1 ≤ rank) : 0 < rrf_score rank k := by
  have h1 : (1 : ℚ) ≤ (rank : ℚ) := by exact_mod_cast h
  have hk : (0 : ℚ) ≤ (k : ℚ) := Nat.cast_nonneg k
  have : (0 : ℚ) < (k : ℚ) + (rank : ℚ) := by linarith
  exact one_div_pos.mpr this

theorem rrfOf_fuseMap (k : ℕ) (cid : String) (hcid : cid ≠ "") (bm ve : List Hit) :
    rrfOf (fuseMap k bm ve) cid = contribSum k cid 1 bm + contribSum k cid 1 ve := by
  rw [fuseMap, rrfOf_processVector k cid hcid ve 1 _, rrfOf_processBM25 k cid hcid bm 1 [],
    rrfOf_nil]
  ring

theorem rrfOf_single_occurrence (k : ℕ) (cid : String) (pre post : List Hit) (h : Hit)
    (hh : hitCid h = cid) (hrest : cid ∉ (pre ++ post).map hitCid) :
    contribSum k cid 1 (pre ++ h :: post) = rrf_score (pre.length + 1) k := by
  rw [List.map_append, List.mem_append, not_or] at hrest
  rw [contribSum_append k cid pre (h :: post) 1, contribSum_of_not_mem k cid pre hrest.1,
    contribSum, if_pos hh, contribSum_of_not_mem k cid post hrest.2]
  rw [Nat.add_comm 1 pre.length]
  ring

theorem mapLookup_of_rrfOf_ne (m : List (String × FusedResult)) (cid : String)
    (h : rrfOf m cid ≠ 0) : ∃ e, mapLookup m cid = some e ∧ e.rrf_score = rrfOf m cid := by
  cases he : mapLookup m cid with
  | none => exact absurd (by simp [rrfOf, he]) h
  | some e => exact ⟨e, rfl, by simp [rrfOf, he]⟩

/-- C1: a chunk id that occurs (exactly once) at 1-indexed rank `r1` in
the BM25 list and rank `r2` in the vector list accumulates fused
`rrf_score` exactly `1/(k+r1) + 1/(k+r2)`, which is strictly greater than
either single contribution alone; a chunk id absent from one source list
accumulates only the contribution of the list it appears in. Ranks are the
positions `b1.length + 1` and `v1.length + 1` of the distinguished
occurrence. -/
theorem C1_rrf_fused_score (k : ℕ) (cid : String) (b1 b2 v1 v2 w : List Hit) (bh vh : Hit)
    (hcid : cid ≠ "") (hbh : hitCid bh = cid) (hvh : hitCid vh = cid)
    (hb : cid ∉ (b1 ++ b2).map hitCid) (hv : cid ∉ (v1 ++ v2).map hitCid)
    (hw : cid ∉ w.map hitCid) :
    (∃ e, mapLookup (fuseMap k (b1 ++ bh :: b2) (v1 ++ vh :: v2)) cid = some e ∧
       e.rrf_score = rrf_score (b1.length + 1) k + rrf_score (v1.length + 1) k)
    ∧ rrf_score (b1.length + 1) k < rrf_score (b1.length + 1) k + rrf_score (v1.length + 1) k
    ∧ rrf_score (v1.length + 1) k < rrf_score (b1.length + 1) k + rrf_score (v1.length + 1) k
    ∧ (∃ e, mapLookup (fuseMap k (b1 ++ bh :: b2) w) cid = some e ∧
       e.rrf_score = rrf_score (b1.length + 1) k)
    ∧ (∃ e, mapLookup (fuseMap k w (v1 ++ vh :: v2)) cid = some e ∧
       e.rrf_score = rrf_score (v1.length + 1) k) := by
  have hb1 : 0 < rrf_score (b1.length + 1) k := rrf_score_pos _ k (Nat.le_add_left 1 _)
  have hv1 : 0 < rrf_score (v1.length + 1) k := rrf_score_pos _ k (Nat.le_add_left 1 _)
  have hbsum : contribSum k cid 1 (b1 ++ bh :: b2) = rrf_score (b1.length + 1) k :=
    rrfOf_single_occurrence k cid b1 b2 bh hbh hb
  have hvsum : contribSum k cid 1 (v1 ++ vh :: v2) = rrf_score (v1.length + 1) k :=
    rrfOf_single_occurrence k cid v1 v2 vh hvh hv
  have hwsum : contribSum k cid 1 w = 0 := contribSum_of_not_mem k cid w hw 1
  refine ⟨?_, by linarith, by linarith, ?_, ?_⟩
  · have := rrfOf_fuseMap k cid hcid (b1 ++ bh :: b2) (v1 ++ vh :: v2)
    rw [hbsum, hvsum] at this
    obtain ⟨e, he, hv'⟩ := mapLookup_of_rrfOf_ne _ cid (by rw [this]; linarith)
    exact ⟨e, he, by rw [hv', this]⟩
  · have := rrfOf_fuseMap k cid hcid (b1 ++ bh :: b2) w
    rw [hbsum, hwsum] at this
    obtain ⟨e, he, hv'⟩ := mapLookup_of_rrfOf_ne _ cid (by rw [this]; linarith)
    exact ⟨e, he, by rw [hv', this]; ring⟩
  · have := rrfOf_fuseMap k cid hcid w (v1 ++ vh :: v2)
    rw [hwsum, hvsum] at this
    obtain ⟨e, he, hv'⟩ := mapLookup_of_rrfOf_ne _ cid (by rw [this]; linarith)
    exact ⟨e, he, by rw [hv', this]; ring⟩

/-- Witness for C1: the spec §8 scenario, chunk `B` at rank 2 of the BM25
list and rank 1 of the vector list, `C` appearing only in the vector
list. -/
theorem C1_rrf_fused_score_witness :
    (∃ e, mapLookup (fuseMap 60 ([mkHit "A"] ++ mkHit "B" :: []) ([] ++ mkHit "B" :: [mkHit "C"])) "B" = some e ∧
       e.rrf_score = rrf_score ([mkHit "A"].length + 1) 60 + rrf_score (([] : List Hit).length + 1) 60)
    ∧ rrf_score ([mkHit "A"].length + 1) 60
        < rrf_score ([mkHit "A"].length + 1) 60 + rrf_score (([] : List Hit).length + 1) 60
    ∧ rrf_score (([] : List Hit).length + 1) 60
        < rrf_score ([mkHit "A"].length + 1) 60 + rrf_score (([] : List Hit).length + 1) 60
    ∧ (∃ e, mapLookup (fuseMap 60 ([mkHit "A"] ++ mkHit "B" :: []) [mkHit "C"]) "B" = some e ∧
       e.rrf_score = rrf_score ([mkHit "A"].length + 1) 60)
    ∧ (∃ e, mapLookup (fuseMap 60 [mkHit "C"] ([] ++ mkHit "B" :: [mkHit "C"])) "B" = some e ∧
       e.rrf_score = rrf_score (([] : List Hit).length + 1) 60) :=
  C1_rrf_fused_score 60 "B" [mkHit "A"] [] [] [mkHit "C"] [mkHit "C"] (mkHit "B") (mkHit "B")
    (by decide) (by decide) (by decide) (by decide) (by decide) (by decide)

/-! Section: Accumulator key and entry invariants -/

theorem mapKeys_cons (p : String × FusedResult) (m : List (String × FusedResult)) :
    mapKeys (p :: m) = p.1 :: mapKeys m := rfl

theorem mapKeys_upsert (m : List (String × FusedResult)) (cid : String)
    (dflt : FusedResult) (f : FusedResult → FusedResult) :
    mapKeys (upsert m cid dflt f) =
      if cid ∈ mapKeys m then mapKeys m else mapKeys m ++ [cid] := by
  induction m with
  | nil => simp [upsert, mapKeys]
  | cons p rest ih =>
    obtain ⟨pk, pv⟩ := p
    by_cases hp : pk = cid
    · subst hp; simp [upsert, mapKeys_cons]
    · have hne : ¬(cid = pk) := fun e => hp e.symm
      by_cases hm : cid ∈ mapKeys rest
      · simp [upsert, hp, mapKeys_cons, ih, hm, hne]
      · simp [upsert, hp, mapKeys_cons, ih, hm, hne]

theorem mapKeys_nodup_upsert (m : List (String × FusedResult)) (cid : String)
    (dflt : FusedResult) (f : FusedResult → FusedResult) (h : (mapKeys m).Nodup) :
    (mapKeys (upsert m cid dflt f)).Nodup := by
  rw [mapKeys_upsert]
  by_cases hm : cid ∈ mapKeys m
  · simpa [hm] using h
  · simp only [hm, if_false]
    exact List.Nodup.append h (List.nodup_singleton cid)
      (by simp only [List.disjoint_left, List.mem_singleton]; intro a ha e; exact hm (e ▸ ha))

theorem mem_upsert (m : List (String × FusedResult)) (cid : String)
    (dflt : FusedResult) (f : FusedResult → FusedResult) (p : String × FusedResult)
    (hp : p ∈ upsert m cid dflt f) :
    (∃ q ∈ m, p = q ∨ p = (q.1, f q.2)) ∨ p = (cid, f dflt) := by
  induction m with
  | nil =>
    simp only [upsert, List.mem_singleton] at hp
    exact Or.inr hp
  | cons x rest ih =>
    obtain ⟨pk, pv⟩ := x
    by_cases hx : pk = cid
    · subst hx
      have heq : upsert ((pk, pv) :: rest) pk dflt f = (pk, f pv) :: rest := by
        simp [upsert]
      rw [heq, List.mem_cons] at hp
      rcases hp with h | h
      · exact Or.inl ⟨(pk, pv), List.mem_cons_self _ _, Or.inr h⟩
      · exact Or.inl ⟨p, List.mem_cons_of_mem _ h, Or.inl rfl⟩
    · have heq : upsert ((pk, pv) :: rest) cid dflt f = (pk, pv) :: upsert rest cid dflt f := by
        simp [upsert, hx]
      rw [heq, List.mem_cons] at hp
      rcases hp with h | h
      · exact Or.inl ⟨(pk, pv), List.mem_cons_self _ _, Or.inl h⟩
      · rcases ih h with ⟨q, hq, hpq⟩ | h2
        · exact Or.inl ⟨q, List.mem_cons_of_mem _ hq, hpq⟩
        · exact Or.inr h2

theorem invMap_upsert (m : List (String × FusedResult)) (cid : String)
    (dflt : FusedResult) (f : FusedResult → FusedResult)
    (hm : invMap m) (hcid : cid ≠ "") (hd : dflt.chunk_id = cid)
    (hf : ∀ e, (f e).chunk_id = e.chunk_id) :
    invMap (upsert m cid dflt f) := by
  intro p hp
  rcases mem_upsert m cid dflt f p hp with ⟨q, hq, hpq | hpq⟩ | hpq
  · exact hpq ▸ hm q hq
  · subst hpq
    exact ⟨(hm q hq).1, by simp [hf, (hm q hq).2]⟩
  · subst hpq
    exact ⟨hcid, by simp [hf, hd]⟩

theorem vector_update_cid (h : Hit) (rank k : ℕ) (e : FusedResult) :
    (vectorUpdate h rank k e).chunk_id = e.chunk_id := by
  by_cases hv : e.vector_score = none <;> simp [vectorUpdate, hv]

theorem invMap_processBM25 (k : ℕ) (hs : List Hit) :
    ∀ (rank : ℕ) (m : List (String × FusedResult)),
    invMap m → invMap (processBM25 k rank hs m) := by
  induction hs with
  | nil => intro rank m hm; exact hm
  | cons h hs ih =>
    intro rank m hm
    rw [processBM25]
    by_cases hc : hitCid h = ""
    · rw [if_pos hc]; exact ih _ _ hm
    · rw [if_neg hc]
      exact ih _ _ (invMap_upsert _ _ _ _ hm hc rfl (fun e => rfl))

theorem invMap_processVector (k : ℕ) (hs : List Hit) :
    ∀ (rank : ℕ) (m : List (String × FusedResult)),
    invMap m → invMap (processVector k rank hs m) := by
  induction hs with
  | nil => intro rank m hm; exact hm
  | cons h hs ih =>
    intro rank m hm
    rw [processVector]
    by_cases hc : hitCid h = ""
    · rw [if_pos hc]; exact ih _ _ hm
    · rw [if_neg hc]
      exact ih _ _ (invMap_upsert _ _ _ _ hm hc rfl (vector_update_cid h _ k))

theorem mapKeys_nodup_processBM25 (k : ℕ) (hs : List Hit) :
    ∀ (rank : ℕ) (m : List (String × FusedResult)),
    (mapKeys m).Nodup → (mapKeys (processBM25 k rank hs m)).Nodup := by
  induction hs with
  | nil => intro rank m hm; exact hm
  | cons h hs ih =>
    intro rank m hm
    rw [processBM25]
    by_cases hc : hitCid h = ""
    · rw [if_pos hc]; exact ih _ _ hm
    · rw [if_neg hc]; exact ih _ _ (mapKeys_nodup_upsert _ _ _ _ hm)

theorem mapKeys_nodup_processVector (k : ℕ) (hs : List Hit) :
    ∀ (rank : ℕ) (m : List (String × FusedResult)),
    (mapKeys m).Nodup → (mapKeys (processVector k rank hs m)).Nodup := by
  induction hs with
  | nil => intro rank m hm; exact hm
  | cons h hs ih =>
    intro rank m hm
    rw [processVector]
    by_cases hc : hitCid h = ""
    · rw [if_pos hc]; exact ih _ _ hm
    · rw [if_neg hc]; exact ih _ _ (mapKeys_nodup_upsert _ _ _ _ hm)

theorem mapKeys_processBM25_subset (k : ℕ) (hs : List Hit) :
    ∀ (rank : ℕ) (m : List (String × FusedResult)) (x : String),
    x ∈ mapKeys (processBM25 k rank hs m) → x ∈ mapKeys m ∨ x ∈ hs.map hitCid := by
  induction hs with
  | nil => intro rank m x hx; exact Or.inl hx
  | cons h hs ih =>
    intro rank m x hx
    rw [processBM25] at hx
    by_cases hc : hitCid h = ""
    · rw [if_pos hc] at hx
      rcases ih _ _ x hx with h1 | h1
      · exact Or.inl h1
      · exact Or.inr (by rw [List.map_cons]; exact List.mem_cons_of_mem _ h1)
    · rw [if_neg hc] at hx
      rcases ih _ _ x hx with h1 | h1
      · rw [mapKeys_upsert] at h1
        by_cases hm : hitCid h ∈ mapKeys m
        · rw [if_pos hm] at h1; exact Or.inl h1
        · rw [if_neg hm] at h1
          rcases List.mem_append.mp h1 with h2 | h2
          · exact Or.inl h2
          · rw [List.mem_singleton] at h2
            exact Or.inr (by rw [List.map_cons, h2]; exact List.mem_cons_self _ _)
      · exact Or.inr (by rw [List.map_cons]; exact List.mem_cons_of_mem _ h1)

theorem mapKeys_processVector_subset (k : ℕ) (hs : List Hit) :
    ∀ (rank : ℕ) (m : List (String × FusedResult)) (x : String),
    x ∈ mapKeys (processVector k rank hs m) → x ∈ mapKeys m ∨ x ∈ hs.map hitCid := by
  induction hs with
  | nil => intro rank m x hx; exact Or.inl hx
  | cons h hs ih =>
    intro rank m x hx
    rw [processVector] at hx
    by_cases hc : hitCid h = ""
    · rw [if_pos hc] at hx
      rcases ih _ _ x hx with h1 | h1
      · exact Or.inl h1
      · exact Or.inr (by rw [List.map_cons]; exact List.mem_cons_of_mem _ h1)
    · rw [if_neg hc] at hx
      rcases ih _ _ x hx with h1 | h1
      · rw [mapKeys_upsert] at h1
        by_cases hm : hitCid h ∈ mapKeys m
        · rw [if_pos hm] at h1; exact Or.inl h1
        · rw [if_neg hm] at h1
          rcases List.mem_append.mp h1 with h2 | h2
          · exact Or.inl h2
          · rw [List.mem_singleton] at h2
            exact Or.inr (by rw [List.map_cons, h2]; exact List.mem_cons_self _ _)
      · exact Or.inr (by rw [List.map_cons]; exact List.mem_cons_of_mem _ h1)

theorem fuseMap_invariants (k : ℕ) (bm ve : List Hit) :
    invMap (fuseMap k bm ve) ∧ (mapKeys (fuseMap k bm ve)).Nodup ∧
    ∀ x ∈ mapKeys (fuseMap k bm ve), x ∈ (bm ++ ve).map hitCid := by
  refine ⟨invMap_processVector k ve 1 _ (invMap_processBM25 k bm 1 [] (by intro p hp; cases hp)),
    mapKeys_nodup_processVector k ve 1 _
      (mapKeys_nodup_processBM25 k bm 1 [] List.nodup_nil), ?_⟩
  intro x hx
  rw [List.map_append, List.mem_append]
  rcases mapKeys_processVector_subset k ve 1 _ x hx with h1 | h1
  · rcases mapKeys_processBM25_subset k bm 1 [] x h1 with h2 | h2
    · cases h2
    · exact Or.inl h2
  · exact Or.inr h1

/-- C9: every returned fused result carries a non-empty `chunk_id` drawn
from the input hits' converted ids (hits whose `chunk_id` is missing or
converts to the empty string contribute nothing), and the chunk ids of the
returned results are pairwise distinct. -/
theorem C9_fused_result_ids (k : ℕ) (bm ve : List Hit) (t : ℕ) :
    (∀ r ∈ HybridRetriever.fuse_results k bm ve t,
       r.chunk_id ≠ "" ∧ r.chunk_id ∈ (bm ++ ve).map hitCid)
    ∧ ((HybridRetriever.fuse_results k bm ve t).map FusedResult.chunk_id).Nodup := by
  obtain ⟨hinv, hnd, hsub⟩ := fuseMap_invariants k bm ve
  constructor
  · intro r hr
    have h1 : r ∈ ((fuseMap k bm ve).map Prod.snd).insertionSort rrfGE :=
      List.mem_of_mem_take hr
    have h2 : r ∈ (fuseMap k bm ve).map Prod.snd :=
      (List.perm_insertionSort rrfGE _).subset h1
    obtain ⟨p, hp, hpr⟩ := List.mem_map.mp h2
    obtain ⟨hk1, hk2⟩ := hinv p hp
    subst hpr
    refine ⟨hk2 ▸ hk1, hk2 ▸ hsub p.1 ?_⟩
    rw [mapKeys]
    exact List.mem_map.mpr ⟨p, hp, rfl⟩
  · have hvals : ((fuseMap k bm ve).map Prod.snd).map FusedResult.chunk_id
        = mapKeys (fuseMap k bm ve) := by
      rw [mapKeys, List.map_map]
      exact List.map_congr_left (fun p hp => (hinv p hp).2)
    rw [HybridRetriever.fuse_results, List.map_take]
    apply List.Nodup.sublist (List.take_sublist _ _)
    have hperm :=
      (List.perm_insertionSort rrfGE ((fuseMap k bm ve).map Prod.snd)).map FusedResult.chunk_id
    exact hperm.nodup_iff.mpr (hvals ▸ hnd)

theorem filter_scoreclass_orderedInsert (q : ℚ) (a : FusedResult) (l : List FusedResult) :
    (List.orderedInsert rrfGE a l).filter (fun x => decide (x.rrf_score = q))
      = (a :: l).filter (fun x => decide (x.rrf_score = q)) := by
  induction l with
  | nil => rfl
  | cons b t ih =>
    rw [List.orderedInsert]
    by_cases hab : rrfGE a b
    · rw [if_pos hab]
    · rw [if_neg hab]
      have hlt : a.rrf_score < b.rrf_score := lt_of_not_le hab
      by_cases haq : a.rrf_score = q
      · have hbq : ¬(b.rrf_score = q) := fun e => absurd (haq.trans e.symm) (ne_of_lt hlt)
        simp [List.filter_cons, haq, hbq, ih]
      · simp [List.filter_cons, haq, ih]

theorem filter_scoreclass_insertionSort (q : ℚ) (l : List FusedResult) :
    (l.insertionSort rrfGE).filter (fun x => decide (x.rrf_score = q))
      = l.filter (fun x => decide (x.rrf_score = q)) := by
  induction l with
  | nil => rfl
  | cons a t ih =>
    rw [List.insertionSort, filter_scoreclass_orderedInsert]
    simp [List.filter_cons, ih]

/-- C4 (amended): the list returned by `_fuse_results` is sorted by
descending `rrf_score`, and whenever two fused results have equal
`rrf_score` they appear in the order their chunk ids were first inserted
into the accumulator map (all BM25-contributed entries in BM25 rank order,
then vector-only entries in vector rank order) — Python's stable sort,
expressed by the score-class filter equation — not in `chunk_id` lexical
order. -/
theorem C4_amended_sorted_stable (k : ℕ) (bm ve : List Hit) (t : ℕ) (q : ℚ) :
    List.Sorted rrfGE (HybridRetriever.fuse_results k bm ve t)
    ∧ (((fuseMap k bm ve).map Prod.snd).insertionSort rrfGE).filter
        (fun x => decide (x.rrf_score = q))
      = ((fuseMap k bm ve).map Prod.snd).filter (fun x => decide (x.rrf_score = q)) :=
  ⟨List.Pairwise.sublist (List.take_sublist _ _) (List.sorted_insertionSort rrfGE _),
    filter_scoreclass_insertionSort q _⟩

/-- C4 (counterexample): with BM25 list `[b]` and vector list `[a]` both
fused entries have the same `rrf_score 1 60`, yet the output order is
`["b", "a"]` — the BM25-inserted entry first — although `"a"` is
lexicographically smaller than `"b"`; so ties are not broken by `chunk_id`
lexical order. -/
theorem C4_counterexample :
    ((HybridRetriever.fuse_results 60 [mkHit "b"] [mkHit "a"] 2).map FusedResult.chunk_id
      = ["b", "a"])
    ∧ ((HybridRetriever.fuse_results 60 [mkHit "b"] [mkHit "a"] 2).map FusedResult.rrf_score
      = [rrf_score 1 60, rrf_score 1 60])
    ∧ ("a" : String) < "b" := by
  refine ⟨?_, ?_, String.lt_iff_toList_lt.mpr (by decide)⟩ <;>
    simp [HybridRetriever.fuse_results, fuseMap, processBM25, processVector, upsert,
      hitCid, pyStrOfGet, mkHit, bm25Init, vectorInit, bmUpdate, vectorUpdate, rrfGE,
      List.insertionSort, List.orderedInsert, meta0]

/-- Witness for C9 at a concrete pair of source lists. -/
theorem C9_fused_result_ids_witness :
    (∀ r ∈ HybridRetriever.fuse_results 60 [mkHit "A", mkHit "B"] [mkHit "B", mkHit "C"] 5,
       r.chunk_id ≠ "" ∧
       r.chunk_id ∈ ([mkHit "A", mkHit "B"] ++ [mkHit "B", mkHit "C"]).map hitCid)
    ∧ ((HybridRetriever.fuse_results 60 [mkHit "A", mkHit "B"] [mkHit "B", mkHit "C"] 5).map
        FusedResult.chunk_id).Nodup :=
  C9_fused_result_ids 60 [mkHit "A", mkHit "B"] [mkHit "B", mkHit "C"] 5

/-! Section: Entity filter -/

theorem dimPasses_iff (ft : List String) (es : List Entity) :
    dimPasses ft es = true ↔
      (ft ≠ [] → ∃ n ∈ es.map entityName, ∃ t ∈ ft,
        strContains (lowerStr n) (lowerStr t) = true) := by
  unfold dimPasses
  by_cases hft : ft.isEmpty
  · simp [hft, List.isEmpty_iff.mp hft]
  · have hne : ft ≠ [] := by simpa [List.isEmpty_iff] using hft
    rw [if_neg hft]
    simp only [List.any_eq_true, hne, ne_eq, not_false_iff, true_implies, forall_true_left]
    constructor
    · rintro ⟨t, ht, x, hx, hc⟩
      obtain ⟨n, hn, rfl⟩ := List.mem_map.mp hx
      exact ⟨n, hn, t, ht, hc⟩
    · rintro ⟨n, hn, t, ht, hc⟩
      exact ⟨t, ht, lowerStr n, List.mem_map.mpr ⟨n, hn, rfl⟩, hc⟩

/-- C6: for every result list and every combination of company, investor
and sector filters, `EntityFilter.filter_results` keeps a result iff, for
every provided (non-empty) filter dimension, at least one of the result's
metadata entity names for that dimension case-insensitively contains one
of that dimension's filter terms as a substring; dimensions with no filter
impose no constraint, and the provided dimensions are ANDed. -/
theorem C6_entity_filter_iff (results : List FusedResult) (cf invf sf : List String)
    (r : FusedResult) :
    r ∈ EntityFilter.filter_results results cf invf sf ↔
      (r ∈ results ∧
        (cf ≠ [] → ∃ n ∈ r.metadata.companies.map entityName, ∃ t ∈ cf,
          strContains (lowerStr n) (lowerStr t) = true) ∧
        (invf ≠ [] → ∃ n ∈ r.metadata.investors.map entityName, ∃ t ∈ invf,
          strContains (lowerStr n) (lowerStr t) = true) ∧
        (sf ≠ [] → ∃ n ∈ r.metadata.sectors.map entityName, ∃ t ∈ sf,
          strContains (lowerStr n) (lowerStr t) = true)) := by
  unfold EntityFilter.filter_results
  by_cases hall : (cf.isEmpty && invf.isEmpty && sf.isEmpty) = true
  · rw [if_pos hall]
    simp only [Bool.and_eq_true, List.isEmpty_iff] at hall
    obtain ⟨⟨h1, h2⟩, h3⟩ := hall
    subst h1; subst h2; subst h3
    simp
  · rw [if_neg hall, List.mem_filter]
    simp only [Bool.and_eq_true, dimPasses_iff]
    tauto

/-- Witness for C6: the claim's example — `companyFilter = ["Anthropic"]`
keeps the result with companies `["Anthropic", "OpenAI"]` and drops the
one with companies `["Google"]`. -/
theorem C6_entity_filter_iff_witness :
    c6Keep ∈ EntityFilter.filter_results [c6Keep, c6Drop] ["Anthropic"] [] []
    ∧ c6Drop ∉ EntityFilter.filter_results [c6Keep, c6Drop] ["Anthropic"] [] [] :=
  ⟨(C6_entity_filter_iff [c6Keep, c6Drop] ["Anthropic"] [] [] c6Keep).mpr (by decide),
   fun h => absurd ((C6_entity_filter_iff [c6Keep, c6Drop] ["Anthropic"] [] [] c6Drop).mp h)
     (by decide)⟩

/-! Section: Multi-query dedup -/

theorem mqDedup_mem (l : List (String × FusedResult)) :
    ∀ (seen : List String) (e : MQEntry), e ∈ mqDedup seen l →
      e.res.chunk_id ∉ seen ∧ e.res.chunk_id ≠ "" ∧
      l.find? (fun p => p.2.chunk_id = e.res.chunk_id) = some (e.query_variation, e.res) := by
  induction l with
  | nil => intro seen e he; cases he
  | cons p rest ih =>
    obtain ⟨q, r⟩ := p
    intro seen e he
    rw [mqDedup] at he
    by_cases hcond : r.chunk_id ≠ "" ∧ r.chunk_id ∉ seen
    · rw [if_pos hcond] at he
      rcases List.mem_cons.mp he with h | h
      · subst h
        exact ⟨hcond.2, hcond.1, by simp [List.find?_cons]⟩
      · obtain ⟨hseen, hne, hfind⟩ := ih (r.chunk_id :: seen) e h
        have hrne : ¬(r.chunk_id = e.res.chunk_id) :=
          fun hc => List.ne_of_not_mem_cons hseen hc.symm
        refine ⟨List.not_mem_of_not_mem_cons hseen, hne, ?_⟩
        simp [List.find?_cons, hrne, hfind]
    · rw [if_neg hcond] at he
      obtain ⟨hseen, hne, hfind⟩ := ih seen e he
      rcases not_and_or.mp hcond with h1 | h1
      · have hcid : r.chunk_id = "" := not_not.mp h1
        have hrne : ¬(r.chunk_id = e.res.chunk_id) := fun hc => hne (hc.symm.trans hcid)
        exact ⟨hseen, hne, by simp [List.find?_cons, hrne, hfind]⟩
      · have hmem : r.chunk_id ∈ seen := not_not.mp h1
        have hrne : ¬(r.chunk_id = e.res.chunk_id) := fun hc => hseen (hc ▸ hmem)
        exact ⟨hseen, hne, by simp [List.find?_cons, hrne, hfind]⟩

theorem mqDedup_covers (l : List (String × FusedResult)) :
    ∀ (seen : List String) (p : String × FusedResult), p ∈ l → p.2.chunk_id ≠ "" →
      p.2.chunk_id ∉ seen → ∃ e ∈ mqDedup seen l, e.res.chunk_id = p.2.chunk_id := by
  induction l with
  | nil => intro seen p hp; cases hp
  | cons x rest ih =>
    obtain ⟨q, r⟩ := x
    intro seen p hp hpne hpseen
    rw [mqDedup]
    by_cases hcond : r.chunk_id ≠ "" ∧ r.chunk_id ∉ seen
    · rw [if_pos hcond]
      by_cases hpr : p.2.chunk_id = r.chunk_id
      · exact ⟨⟨r, q⟩, List.mem_cons_self _ _, hpr.symm⟩
      · rcases List.mem_cons.mp hp with h | h
        · exact absurd (congrArg (fun y => y.2.chunk_id) h) hpr
        · obtain ⟨e, he, hecid⟩ := ih (r.chunk_id :: seen) p h hpne
            (by rw [List.mem_cons, not_or]; exact ⟨fun e2 => hpr e2, hpseen⟩)
          exact ⟨e, List.mem_cons_of_mem _ he, hecid⟩
    · rw [if_neg hcond]
      rcases List.mem_cons.mp hp with h | h
      · exfalso
        rcases not_and_or.mp hcond with h1 | h1
        · exact hpne (by rw [h]; exact not_not.mp h1)
        · exact hpseen (by rw [h]; exact not_not.mp h1)
      · exact ih seen p h hpne hpseen

theorem mqDedup_nodup (l : List (String × FusedResult)) :
    ∀ (seen : List String), ((mqDedup seen l).map (fun e => e.res.chunk_id)).Nodup := by
  induction l with
  | nil => intro seen; exact List.nodup_nil
  | cons x rest ih =>
    obtain ⟨q, r⟩ := x
    intro seen
    rw [mqDedup]
    by_cases hcond : r.chunk_id ≠ "" ∧ r.chunk_id ∉ seen
    · rw [if_pos hcond, List.map_cons, List.nodup_cons]
      refine ⟨?_, ih (r.chunk_id :: seen)⟩
      intro hmem
      obtain ⟨e, he, hecid⟩ := List.mem_map.mp hmem
      exact List.ne_of_not_mem_cons (mqDedup_mem rest _ e he).1 hecid
    · rw [if_neg hcond]; exact ih seen

/-- C7: under multi-query retrieval the original query is always processed
first (`normalize_variations` moves it to the front), results are
deduplicated by `chunk_id` across the variants' result lists in processing
order — the kept entry is exactly the first occurrence (`List.find?`) in
the tagged concatenation, with its scores, and later occurrences of that
`chunk_id` are dropped, not merged (the kept ids are pairwise distinct,
yet every non-empty occurring id survives) — and truncation to the
requested `top_k` happens only after the merge, on the sorted merged
list. -/
theorem C7_multi_query_first_occurrence_wins (query : String) (vars : List String)
    (f : String → Except Unit (List FusedResult)) (t : Option ℕ) (d : ℕ) :
    (MultiQueryRetriever.normalize_variations query vars).head? = some query
    ∧ (∀ e ∈ mqDedup [] (mqTagged (MultiQueryRetriever.normalize_variations query vars) f),
        e.res.chunk_id ≠ "" ∧
        (mqTagged (MultiQueryRetriever.normalize_variations query vars) f).find?
            (fun p => p.2.chunk_id = e.res.chunk_id) = some (e.query_variation, e.res))
    ∧ ((mqDedup [] (mqTagged (MultiQueryRetriever.normalize_variations query vars) f)).map
        (fun e => e.res.chunk_id)).Nodup
    ∧ (∀ p ∈ mqTagged (MultiQueryRetriever.normalize_variations query vars) f,
        p.2.chunk_id ≠ "" →
        ∃ e ∈ mqDedup [] (mqTagged (MultiQueryRetriever.normalize_variations query vars) f),
          e.res.chunk_id = p.2.chunk_id)
    ∧ MultiQueryRetriever.retrieve query vars f t d
      = ((mqDedup [] (mqTagged (MultiQueryRetriever.normalize_variations query vars)
          f)).insertionSort mqGE).take (effTopK t d) := by
  refine ⟨?_, ?_, mqDedup_nodup _ [], ?_, rfl⟩
  · rw [MultiQueryRetriever.normalize_variations]
    by_cases h : query ∈ vars
    · rw [if_pos h]; rfl
    · rw [if_neg h]; rfl
  · intro e he
    obtain ⟨_, hne, hfind⟩ := mqDedup_mem _ [] e he
    exact ⟨hne, hfind⟩
  · intro p hp hne
    exact mqDedup_covers _ [] p hp hne (List.not_mem_nil _)

/-- Witness for C7 at a concrete query, variant list and retrieval
outcome. -/
theorem C7_multi_query_first_occurrence_wins_witness :
    (MultiQueryRetriever.normalize_variations "q" ["v", "q"]).head? = some "q" :=
  (C7_multi_query_first_occurrence_wins "q" ["v", "q"] (fun s => Except.ok [mkFused s 1])
    (some 5) 10).1

/-! Section: Graceful degradation of the hybrid retriever -/

theorem upsert_append (m : List (String × FusedResult)) (cid : String)
    (dflt : FusedResult) (f : FusedResult → FusedResult) (h : cid ∉ mapKeys m) :
    upsert m cid dflt f = m ++ [(cid, f dflt)] := by
  induction m with
  | nil => rfl
  | cons p rest ih =>
    obtain ⟨pk, pv⟩ := p
    rw [mapKeys_cons, List.mem_cons, not_or] at h
    have hne : ¬(pk = cid) := fun e => h.1 e.symm
    simp [upsert, hne, ih h.2]

theorem processBM25_eq_append (k : ℕ) (hs : List Hit) :
    ∀ (rank : ℕ) (m : List (String × FusedResult)),
    (∀ h ∈ hs, hitCid h ≠ "") → (hs.map hitCid).Nodup →
    (∀ h ∈ hs, hitCid h ∉ mapKeys m) →
    processBM25 k rank hs m = m ++ bmAppend k rank hs := by
  induction hs with
  | nil => intro rank m _ _ _; simp [processBM25, bmAppend]
  | cons h hs ih =>
    intro rank m hne hnd hdisj
    have hcid : ¬(hitCid h = "") := hne h (List.mem_cons_self _ _)
    rw [processBM25, if_neg hcid,
      upsert_append m _ _ _ (hdisj h (List.mem_cons_self _ _))]
    rw [List.map_cons, List.nodup_cons] at hnd
    rw [ih (rank + 1) _ (fun x hx => hne x (List.mem_cons_of_mem _ hx)) hnd.2 ?_]
    · simp [bmAppend, bmUpdate, bm25Init]
    · intro x hx
      rw [mapKeys, List.map_append, List.mem_append, not_or]
      refine ⟨hdisj x (List.mem_cons_of_mem _ hx), ?_⟩
      have : hitCid x ≠ hitCid h := by
        intro e
        exact hnd.1 (e ▸ List.mem_map.mpr ⟨x, hx, rfl⟩)
      simp [this]

theorem bmAppend_cid (k : ℕ) (hs : List Hit) :
    ∀ rank, ((bmAppend k rank hs).map Prod.snd).map FusedResult.chunk_id = hs.map hitCid := by
  induction hs with
  | nil => intro rank; rfl
  | cons h hs ih => intro rank; simp [bmAppend, bm25Init, ih (rank + 1)]

theorem bmAppend_ne_nil (k rank : ℕ) (hs : List Hit) (h : hs ≠ []) :
    bmAppend k rank hs ≠ [] := by
  cases hs with
  | nil => exact absurd rfl h
  | cons x t => simp [bmAppend]

theorem rrf_score_anti (k r1 r2 : ℕ) (h1 : 1 ≤ r1) (h12 : r1 ≤ r2) :
    rrf_score r2 k ≤ rrf_score r1 k := by
  unfold rrf_score
  have hc1 : (1 : ℚ) ≤ (r1 : ℚ) := by exact_mod_cast h1
  have hk : (0 : ℚ) ≤ (k : ℚ) := Nat.cast_nonneg k
  have hpos : (0 : ℚ) < (k : ℚ) + (r1 : ℚ) := by linarith
  have hc2 : (r1 : ℚ) ≤ (r2 : ℚ) := by exact_mod_cast h12
  exact one_div_le_one_div_of_le hpos (by linarith)

theorem bmAppend_score_le (k : ℕ) (hs : List Hit) :
    ∀ (rank r0 : ℕ), 1 ≤ r0 → r0 ≤ rank → ∀ p ∈ bmAppend k rank hs,
      p.2.rrf_score ≤ 0 + rrf_score r0 k := by
  induction hs with
  | nil => intro rank r0 _ _ p hp; cases hp
  | cons h hs ih =>
    intro rank r0 h0 hr p hp
    rw [bmAppend] at hp
    rcases List.mem_cons.mp hp with he | he
    · subst he
      show (0 : ℚ) + rrf_score rank k ≤ 0 + rrf_score r0 k
      linarith [rrf_score_anti k r0 rank h0 hr]
    · exact ih (rank + 1) r0 h0 (le_trans hr (Nat.le_succ rank)) p he

theorem sorted_bmAppend (k : ℕ) (hs : List Hit) :
    ∀ rank, 1 ≤ rank → List.Sorted rrfGE ((bmAppend k rank hs).map Prod.snd) := by
  induction hs with
  | nil => intro rank _; exact List.sorted_nil
  | cons h hs ih =>
    intro rank h1
    rw [bmAppend, List.map_cons, List.sorted_cons]
    refine ⟨?_, ih (rank + 1) (le_trans h1 (Nat.le_succ rank))⟩
    intro b hb
    obtain ⟨p, hp, rfl⟩ := List.mem_map.mp hb
    show p.2.rrf_score ≤ _
    have := bmAppend_score_le k hs (rank + 1) rank h1 (Nat.le_succ rank) p hp
    simpa using this

theorem fuseMap_empty_vector (k : ℕ) (bm : List Hit) :
    fuseMap k bm [] = processBM25 k 1 bm [] := rfl

theorem bm25Retrieve_cid (chunks : List Chunk) (scores : List ℚ) (tk : ℕ) (h : Hit)
    (hh : h ∈ BM25RetrieverWrapper.retrieve chunks scores tk) :
    ∃ c ∈ chunks, hitCid h = pyStrOfGet c.id := by
  rw [BM25RetrieverWrapper.retrieve] at hh
  by_cases hc : chunks.isEmpty
  · rw [if_pos hc] at hh; cases hh
  · rw [if_neg hc] at hh
    obtain ⟨p, hp, rfl⟩ := List.mem_map.mp hh
    have hp2 : p ∈ (chunks.zip scores).insertionSort chunkScoreGE := List.mem_of_mem_take hp
    have hp3 : p ∈ chunks.zip scores := (List.perm_insertionSort chunkScoreGE _).subset hp2
    obtain ⟨c, s⟩ := p
    exact ⟨c, (List.of_mem_zip hp3).1, rfl⟩

theorem bm25Retrieve_nodup (chunks : List Chunk) (scores : List ℚ) (tk : ℕ)
    (hlen : scores.length = chunks.length)
    (hnd : (chunks.map (fun c => pyStrOfGet c.id)).Nodup) :
    ((BM25RetrieverWrapper.retrieve chunks scores tk).map hitCid).Nodup := by
  rw [BM25RetrieverWrapper.retrieve]
  by_cases hc : chunks.isEmpty
  · simp [hc]
  · rw [if_neg hc, List.map_map]
    have hfun : (((chunks.zip scores).insertionSort chunkScoreGE).take tk).map
          (hitCid ∘ bm25Format)
        = (((chunks.zip scores).insertionSort chunkScoreGE).take tk).map
          (fun p => pyStrOfGet p.1.id) :=
      List.map_congr_left (fun p _ => rfl)
    rw [hfun]
    have key : ((chunks.zip scores).map (fun p => pyStrOfGet p.1.id)).Nodup := by
      have he : (chunks.zip scores).map (fun p => pyStrOfGet p.1.id)
          = ((chunks.zip scores).map Prod.fst).map (fun c => pyStrOfGet c.id) := by
        rw [List.map_map]; rfl
      rw [he, List.map_fst_zip chunks scores (le_of_eq hlen.symm)]
      exact hnd
    have hperm : List.Perm
        (((chunks.zip scores).insertionSort chunkScoreGE).map (fun p => pyStrOfGet p.1.id))
        ((chunks.zip scores).map (fun p => pyStrOfGet p.1.id)) :=
      (List.perm_insertionSort chunkScoreGE _).map _
    apply List.Nodup.sublist (List.Sublist.map _ (List.take_sublist _ _))
    exact hperm.nodup_iff.mpr key

theorem bm25Retrieve_length (chunks : List Chunk) (scores : List ℚ) (tk : ℕ)
    (hlen : scores.length = chunks.length) :
    (BM25RetrieverWrapper.retrieve chunks scores tk).length = min tk chunks.length := by
  rw [BM25RetrieverWrapper.retrieve]
  by_cases hc : chunks.isEmpty
  · rw [if_pos hc]
    simp [List.isEmpty_iff.mp hc]
  · rw [if_neg hc, List.length_map, List.length_take, List.length_insertionSort,
      List.length_zip, hlen, min_self]

theorem effTopK_pos (t : Option ℕ) (d : ℕ) (hd : 1 ≤ d) : 1 ≤ effTopK t d := by
  cases t with
  | none => exact hd
  | some n =>
    by_cases hn : n = 0
    · simpa [effTopK, hn] using hd
    · simp [effTopK, hn]
      omega

theorem take_ne_nil_of_ne_nil {α : Type} (l : List α) (n : ℕ) (hl : l ≠ []) (hn : 1 ≤ n) :
    l.take n ≠ [] := by
  cases l with
  | nil => exact absurd rfl hl
  | cons a t =>
    cases n with
    | zero => omega
    | succ m => simp [List.take]

/-- C5: when the vector branch raises (embedding generation or vector
store search fails inside the `try`, leaving `vector_results` empty),
`HybridRetriever.retrieve` does not propagate the error: it returns the
fusion of the BM25 results with the empty vector list, that fusion is a
pass-through ranking of the BM25 list (same chunk ids in the same order,
truncated to the effective top-k), and the returned list is non-empty
whenever the lexical index (the chunk corpus, with its well-formed
pairwise-distinct non-empty ids and one score per chunk) is non-empty. -/
theorem C5_vector_failure_degrades (k d : ℕ) (t : Option ℕ)
    (chunks : List Chunk) (scores : List ℚ)
    (hd : 1 ≤ d) (hlen : scores.length = chunks.length)
    (hids : ∀ c ∈ chunks, pyStrOfGet c.id ≠ "")
    (hnd : (chunks.map (fun c => pyStrOfGet c.id)).Nodup) :
    HybridRetriever.retrieve k d
        (Except.ok (BM25RetrieverWrapper.retrieve chunks scores (2 * effTopK t d)))
        (Except.error ()) t true true
      = HybridRetriever.fuse_results k
          (BM25RetrieverWrapper.retrieve chunks scores (2 * effTopK t d)) [] (effTopK t d)
    ∧ (HybridRetriever.retrieve k d
        (Except.ok (BM25RetrieverWrapper.retrieve chunks scores (2 * effTopK t d)))
        (Except.error ()) t true true).map FusedResult.chunk_id
      = ((BM25RetrieverWrapper.retrieve chunks scores (2 * effTopK t d)).map hitCid).take
          (effTopK t d)
    ∧ (chunks ≠ [] →
        HybridRetriever.retrieve k d
          (Except.ok (BM25RetrieverWrapper.retrieve chunks scores (2 * effTopK t d)))
          (Except.error ()) t true true ≠ []) := by
  have ht := effTopK_pos t d hd
  have hbm_ne : ∀ h ∈ BM25RetrieverWrapper.retrieve chunks scores (2 * effTopK t d),
      hitCid h ≠ "" := by
    intro h hh
    obtain ⟨c, hc, he⟩ := bm25Retrieve_cid chunks scores _ h hh
    rw [he]
    exact hids c hc
  have hbm_nd := bm25Retrieve_nodup chunks scores (2 * effTopK t d) hlen hnd
  have heq : processBM25 k 1 (BM25RetrieverWrapper.retrieve chunks scores (2 * effTopK t d)) []
      = bmAppend k 1 (BM25RetrieverWrapper.retrieve chunks scores (2 * effTopK t d)) := by
    rw [processBM25_eq_append k _ 1 [] hbm_ne hbm_nd (fun _ _ => List.not_mem_nil _)]
    rfl
  have hfuse : HybridRetriever.fuse_results k
        (BM25RetrieverWrapper.retrieve chunks scores (2 * effTopK t d)) [] (effTopK t d)
      = ((bmAppend k 1 (BM25RetrieverWrapper.retrieve chunks scores
          (2 * effTopK t d))).map Prod.snd).take (effTopK t d) := by
    rw [HybridRetriever.fuse_results, fuseMap_empty_vector, heq,
      List.Sorted.insertionSort_eq (sorted_bmAppend k _ 1 le_rfl)]
  have hretr : HybridRetriever.retrieve k d
      (Except.ok (BM25RetrieverWrapper.retrieve chunks scores (2 * effTopK t d)))
      (Except.error ()) t true true
      = HybridRetriever.fuse_results k
          (BM25RetrieverWrapper.retrieve chunks scores (2 * effTopK t d)) [] (effTopK t d) := rfl
  refine ⟨rfl, ?_, ?_⟩
  · rw [hretr, hfuse, List.map_take, bmAppend_cid]
  · intro hch
    rw [hretr, hfuse]
    apply take_ne_nil_of_ne_nil _ _ _ ht
    have hlenbm : (BM25RetrieverWrapper.retrieve chunks scores (2 * effTopK t d)).length
        = min (2 * effTopK t d) chunks.length := bm25Retrieve_length chunks scores _ hlen
    have hpos : 0 < (BM25RetrieverWrapper.retrieve chunks scores (2 * effTopK t d)).length := by
      rw [hlenbm]
      have h1 : 0 < 2 * effTopK t d := by omega
      have h2 : 0 < chunks.length := List.length_pos.mpr hch
      omega
    have hbmne : BM25RetrieverWrapper.retrieve chunks scores (2 * effTopK t d) ≠ [] :=
      List.length_pos.mp hpos
    intro he
    exact bmAppend_ne_nil k 1 _ hbmne (List.map_eq_nil_iff.mp he)

/-- Witness for C5: a one-chunk corpus, one BM25 score, defaults from the
configuration, and a failing vector branch. -/
theorem C5_vector_failure_degrades_witness :
    HybridRetriever.retrieve 60 10
        (Except.ok (BM25RetrieverWrapper.retrieve [c5Chunk] [1] (2 * effTopK none 10)))
        (Except.error ()) none true true ≠ [] :=
  (C5_vector_failure_degrades 60 10 none [c5Chunk] [1] (by decide) (by decide)
    (by decide) (by decide)).2.2 (by decide)

end Rag
